import Mathlib

/-!
Verification development for the MichiMem persistent memory store.

The TypeScript sources are shallowly embedded: pure functions become Lean
functions, the SQLite-backed store becomes a list of records threaded through
each operation, and effects outside the repository (the system clock, uuid
generation, the JSON parser, the JS regular-expression engine, the SQLite FTS5
match/rank machinery and the filesystem) are passed in as explicit parameters.
JS strings are modelled as Lean strings (code-unit versus code-point lengths
are not distinguished; all reasoning is length-generic or ASCII).
-/

/-! ## Character and string helpers -/

/-- Lowercasing of one character, modelling the ASCII fragment of the
JS String.prototype.toLowerCase used by the sources. -/
def lowerChar (c : Char) : Char :=
  if 65 ≤ c.toNat ∧ c.toNat ≤ 90 then Char.ofNat (c.toNat + 32) else c

theorem toNat_ofNat_of_valid {n : Nat} (h : n.isValidChar) : (Char.ofNat n).toNat = n := by
  unfold Char.ofNat
  split
  · rfl
  · contradiction

theorem lowerChar_toNat (c : Char) :
    (lowerChar c).toNat = if 65 ≤ c.toNat ∧ c.toNat ≤ 90 then c.toNat + 32 else c.toNat := by
  unfold lowerChar
  split
  · exact toNat_ofNat_of_valid (Or.inl (by omega))
  · rfl

theorem lowerChar_eq_self {c : Char} (h : ¬(65 ≤ c.toNat ∧ c.toNat ≤ 90)) : lowerChar c = c := by
  unfold lowerChar
  exact if_neg h

theorem lowerChar_idem (c : Char) : lowerChar (lowerChar c) = lowerChar c := by
  have h1 := lowerChar_toNat c
  by_cases h : 65 ≤ c.toNat ∧ c.toNat ≤ 90
  · rw [if_pos h] at h1
    exact lowerChar_eq_self (by omega)
  · rw [if_neg h] at h1
    exact lowerChar_eq_self (by omega)

/-- Lowercasing of a whole string (JS s.toLowerCase, ASCII fragment). -/
def lowerStr (s : String) : String := String.mk (s.toList.map lowerChar)

theorem toList_mk (l : List Char) : (String.mk l).toList = l := rfl

theorem lowerStr_idem (s : String) : lowerStr (lowerStr s) = lowerStr s := by
  unfold lowerStr
  rw [toList_mk, List.map_map]
  have hcomp : lowerChar ∘ lowerChar = lowerChar := funext fun c => lowerChar_idem c
  rw [hcomp]

/-- Splits a character list into the maximal runs of characters satisfying p,
dropping the separators; mirrors both the JS split on a non-word-character
regex and the FTS5 tokenizer loop. The second argument accumulates the
current run in reverse. -/
def splitRuns (p : Char → Bool) : List Char → List Char → List String
  | [], [] => []
  | [], acc => [String.mk acc.reverse]
  | c :: cs, acc =>
    if p c then splitRuns p cs (c :: acc)
    else
      match acc with
      | [] => splitRuns p cs []
      | _ => String.mk acc.reverse :: splitRuns p cs []

/-- ASCII alphanumeric characters: the token characters of the modelled
FTS5 tokenizer. -/
def isTokenChar (c : Char) : Bool :=
  (48 ≤ c.toNat && c.toNat ≤ 57) || (65 ≤ c.toNat && c.toNat ≤ 90) ||
    (97 ≤ c.toNat && c.toNat ≤ 122)

/-- JS word characters (regex \w): ASCII alphanumerics and the underscore. -/
def isJsWordChar (c : Char) : Bool := isTokenChar c || c = '_'

def joinSpace (l : List String) : String := String.intercalate " " l

/-! ## Data model (src/src/types.ts) -/

inductive MemoryType where
  | diary
  | insight
  | knowledge
  | shared
deriving DecidableEq, Repr

structure Memory where
  id : String
  type : MemoryType
  priority : Nat
  title : String
  summary : String
  content : String
  tags : List String
  agent_id : String
  source_ids : List String
  created_at : String
  updated_at : String
  expires_at : Option String
deriving DecidableEq, Repr

/-- Insertion payload; optional fields mirror the optional members of the
TypeScript MemoryInput interface. -/
structure MemoryInput where
  type : MemoryType
  priority : Nat
  title : String
  summary : String
  content : String
  tags : Option (List String) := none
  agent_id : Option String := none
  source_ids : Option (List String) := none
  expires_at : Option (Option String) := none
deriving DecidableEq, Repr

/-! ## Full-text search model

The store's search delegates to the SQLite FTS5 index, which is outside the
repository sources. -/

/-- Tokenization for the modelled full-text index: lowercase the text and
take the maximal alphanumeric runs. -/
def tokenize (s : String) : List String := splitRuns isTokenChar (lowerStr s).toList []

theorem tokenize_lowerStr (s : String) : tokenize (lowerStr s) = tokenize s := by
  unfold tokenize
  rw [lowerStr_idem]

theorem tokenize_eq_of_lowerStr_eq {s t : String} (h : lowerStr s = lowerStr t) :
    tokenize s = tokenize t := by
  rw [← tokenize_lowerStr s, ← tokenize_lowerStr t, h]

/-- Tokens of the four indexed columns of a record (title, summary, content,
tags), mirroring the memories_fts schema. -/
def recordTokens (m : Memory) : List String :=
  tokenize m.title ++ tokenize m.summary ++ tokenize m.content ++ tokenize (joinSpace m.tags)

/-- Modelled from the spec: the FTS5 MATCH semantics live in SQLite, outside
the repository sources; the spec fixes only that search is full-text search
over the indexed columns. A record matches a query when every token of the
query occurs among the record's indexed tokens. -/
def ftsMatch (m : Memory) (query : String) : Bool :=
  (tokenize query).all (fun t => (recordTokens m).contains t)

/-- Modelled from the spec: the FTS5 rank is declared opaque by the spec, so
result order is modelled as store order; IndexDB.search filters the store by
the match predicate and applies the LIMIT. -/
def ftsSearch (store : List Memory) (query : String) (limit : Nat) : List Memory :=
  (store.filter (fun m => ftsMatch m query)).take limit

theorem ftsMatch_congr_query {m : Memory} {q r : String} (h : tokenize q = tokenize r) :
    ftsMatch m q = ftsMatch m r := by
  unfold ftsMatch
  rw [h]

theorem ftsMatch_of_title_eq {m : Memory} {q : String} (h : lowerStr m.title = lowerStr q) :
    ftsMatch m q = true := by
  unfold ftsMatch
  rw [List.all_eq_true]
  intro t ht
  have htok : tokenize m.title = tokenize q := tokenize_eq_of_lowerStr_eq h
  have : t ∈ recordTokens m := by
    unfold recordTokens
    rw [htok]
    exact List.mem_append_left _ (List.mem_append_left _ (List.mem_append_left _ ht))
  rw [List.contains_eq_any_beq, List.any_eq_true]
  exact ⟨t, this, by simp⟩

/-! ## Store operations (IndexDB, src/mcp/src/services) -/

/-- IndexDB.insert: the uuid and the captured clock value are parameters.
Both timestamp columns are written from the same captured now. -/
def dbInsert (store : List Memory) (input : MemoryInput) (newId now : String) :
    Memory × List Memory :=
  let memory : Memory := {
    id := newId
    type := input.type
    priority := input.priority
    title := input.title
    summary := input.summary
    content := input.content
    tags := input.tags.getD []
    agent_id := input.agent_id.getD ""
    source_ids := input.source_ids.getD []
    created_at := now
    updated_at := now
    expires_at := input.expires_at.getD none }
  (memory, store ++ [memory])

/-- Recency order used by getByType and getByPriority (ORDER BY updated_at
DESC); ties are broken arbitrarily by the database, here by input order. -/
def sortByUpdatedDesc (l : List Memory) : List Memory :=
  List.insertionSort (fun a b => b.updated_at ≤ a.updated_at) l

def getByType (store : List Memory) (ty : MemoryType) (limit : Nat) : List Memory :=
  (sortByUpdatedDesc (store.filter (fun m => m.type = ty))).take limit

def getByPriority (store : List Memory) (p : Nat) (limit : Nat) : List Memory :=
  (sortByUpdatedDesc (store.filter (fun m => m.priority = p))).take limit

/-! ## Tiering (buildL0, src/unnamed/part_000) -/

structure TieredResult where
  id : String
  title : String
  type : MemoryType
  priority : Nat
  text : String
deriving DecidableEq, Repr

def toTiered (m : Memory) (text : String) : TieredResult :=
  { id := m.id, title := m.title, type := m.type, priority := m.priority, text := text }

/-- Token estimator: Math.ceil(text.length / 4). -/
def estimateTokens (text : String) : Nat := (text.length + 3) / 4

/-- One greedy emission loop of buildL0: renders each memory as
title-colon-space-summary and stops at the first overflow of the budget,
sharing the running estimate across calls. -/
def emitGreedy (budget : Nat) : List Memory → Nat → List TieredResult × Nat
  | [], acc => ([], acc)
  | m :: rest, acc =>
    let line := m.title ++ ": " ++ m.summary
    let tokens := estimateTokens line
    if acc + tokens > budget then ([], acc)
    else
      let result := emitGreedy budget rest (acc + tokens)
      (toTiered m line :: result.1, result.2)

/-- buildL0: up to 20 priority-0 records, then up to 10 insights, then up to
5 shared records, all under one shared token estimate. -/
def buildL0 (store : List Memory) (l0_budget : Nat) : List TieredResult :=
  let knowledge := getByPriority store 0 20
  let insights := getByType store MemoryType.insight 10
  let shared := getByType store MemoryType.shared 5
  let step1 := emitGreedy l0_budget knowledge 0
  let step2 := emitGreedy l0_budget insights step1.2
  let step3 := emitGreedy l0_budget shared step2.2
  step1.1 ++ step2.1 ++ step3.1

def sumTokens (rs : List TieredResult) : Nat := (rs.map (fun r => estimateTokens r.text)).sum

theorem emitGreedy_spec (budget : Nat) (mems : List Memory) :
    ∀ acc, acc ≤ budget →
      (emitGreedy budget mems acc).2 = acc + sumTokens (emitGreedy budget mems acc).1 ∧
      (emitGreedy budget mems acc).2 ≤ budget := by
  induction mems with
  | nil =>
    intro acc hacc
    simp [emitGreedy, sumTokens, hacc]
  | cons m rest ih =>
    intro acc hacc
    unfold emitGreedy
    by_cases hov : acc + estimateTokens (m.title ++ ": " ++ m.summary) > budget
    · simp only [hov, if_pos]
      simp [sumTokens, hacc]
    · simp only [hov, if_neg, not_false_iff]
      have hle : acc + estimateTokens (m.title ++ ": " ++ m.summary) ≤ budget := by omega
      have := ih (acc + estimateTokens (m.title ++ ": " ++ m.summary)) hle
      simp only [sumTokens, List.map_cons, List.sum_cons] at this ⊢
      constructor
      · rw [this.1]
        simp [toTiered, sumTokens]
        omega
      · exact this.2

theorem sum_take_le_sum (l : List Nat) (k : Nat) : (l.take k).sum ≤ l.sum := by
  induction l generalizing k with
  | nil => simp
  | cons x xs ih =>
    cases k with
    | zero => simp
    | succ n =>
      simp only [List.take_succ_cons, List.sum_cons]
      exact Nat.add_le_add_left (ih n) x

/-- C3: the list returned by buildL0 respects the token budget: the running
sum of ceil(length/4) over the emitted rendered lines never exceeds the
budget, jointly across the three streams. -/
theorem buildL0_token_budget (store : List Memory) (l0_budget : Nat) :
    ∀ k, sumTokens ((buildL0 store l0_budget).take k) ≤ l0_budget := by
  intro k
  have htotal : sumTokens (buildL0 store l0_budget) ≤ l0_budget := by
    unfold buildL0
    have h1 := emitGreedy_spec l0_budget (getByPriority store 0 20) 0 (Nat.zero_le _)
    have h2 := emitGreedy_spec l0_budget (getByType store MemoryType.insight 10) _ h1.2
    have h3 := emitGreedy_spec l0_budget (getByType store MemoryType.shared 5) _ h2.2
    simp only [sumTokens, List.map_append, List.sum_append]
    simp only [sumTokens] at h1 h2 h3
    omega
  calc sumTokens ((buildL0 store l0_budget).take k)
      ≤ sumTokens (buildL0 store l0_budget) := by
        unfold sumTokens
        rw [List.map_take]
        exact sum_take_le_sum _ _
    _ ≤ l0_budget := htotal

/-- C10: a freshly inserted Memory (both the returned value and the row added
to the store) has created_at equal to updated_at, set from the same captured
now. -/
theorem insert_created_at_eq_updated_at (store : List Memory) (input : MemoryInput)
    (newId now : String) :
    (dbInsert store input newId now).1.created_at = (dbInsert store input newId now).1.updated_at ∧
    (dbInsert store input newId now).1 ∈ (dbInsert store input newId now).2 ∧
    ∀ m ∈ (dbInsert store input newId now).2, m ∈ store ∨ m.created_at = m.updated_at := by
  refine ⟨rfl, ?_, ?_⟩
  · simp [dbInsert]
  · intro m hm
    simp only [dbInsert, List.mem_append, List.mem_singleton] at hm
    rcases hm with h | h
    · exact Or.inl h
    · subst h
      exact Or.inr rfl

/-! ## Partial update (IndexDB.update) -/

/-- Field set accepted by IndexDB.update; a present field is written, an
absent one is left untouched. -/
structure UpdateFields where
  title : Option String := none
  summary : Option String := none
  content : Option String := none
  tags : Option (List String) := none
  priority : Option Nat := none
  expires_at : Option (Option String) := none
deriving DecidableEq, Repr

/-- One row after IndexDB.update: the listed fields are overwritten and
updated_at is touched; nothing recomputes expires_at from a new priority. -/
def applyFields (m : Memory) (f : UpdateFields) (now : String) : Memory :=
  { m with
    title := f.title.getD m.title
    summary := f.summary.getD m.summary
    content := f.content.getD m.content
    tags := f.tags.getD m.tags
    priority := f.priority.getD m.priority
    expires_at := f.expires_at.getD m.expires_at
    updated_at := now }

/-- IndexDB.update: UPDATE memories SET ... WHERE id = ?; the returned Bool
is result.changes > 0, i.e. whether some row matched the id. -/
def dbUpdate (store : List Memory) (id : String) (f : UpdateFields) (now : String) :
    List Memory × Bool :=
  (store.map (fun m => if m.id = id then applyFields m f now else m),
   store.any (fun m => m.id == id))

/-- C8: update touches only the listed fields plus updated_at and returns
whether a row matched: updating priority alone leaves expires_at and all
other fields unchanged (expires_at is not recomputed), and update returns
false when no row has the id. -/
theorem update_frame (store : List Memory) (id : String) (f : UpdateFields) (now : String) :
    ((∃ m ∈ store, m.id = id) → (dbUpdate store id f now).2 = true) ∧
    ((∀ m ∈ store, m.id ≠ id) → (dbUpdate store id f now).2 = false) ∧
    (∀ m ∈ store, m.id ≠ id → m ∈ (dbUpdate store id f now).1) ∧
    (∀ m ∈ store, m.id = id →
      ∃ m2 ∈ (dbUpdate store id f now).1,
        m2.id = m.id ∧
        m2.type = m.type ∧
        m2.created_at = m.created_at ∧
        m2.agent_id = m.agent_id ∧
        m2.source_ids = m.source_ids ∧
        m2.updated_at = now ∧
        (f.title = none → m2.title = m.title) ∧
        (f.summary = none → m2.summary = m.summary) ∧
        (f.content = none → m2.content = m.content) ∧
        (f.tags = none → m2.tags = m.tags) ∧
        (∀ p, f.priority = some p → m2.priority = p) ∧
        (f.expires_at = none → m2.expires_at = m.expires_at)) := by
  refine ⟨?_, ?_, ?_, ?_⟩
  · rintro ⟨m, hm, hid⟩
    simp only [dbUpdate, List.any_eq_true]
    exact ⟨m, hm, by simp [hid]⟩
  · intro h
    simp only [dbUpdate, List.any_eq_false]
    intro m hm
    simp [h m hm]
  · intro m hm hne
    simp only [dbUpdate]
    have : (if m.id = id then applyFields m f now else m) = m := if_neg hne
    rw [← this]
    exact List.mem_map_of_mem _ hm
  · intro m hm hid
    refine ⟨applyFields m f now, ?_, ?_⟩
    · simp only [dbUpdate]
      have : (if m.id = id then applyFields m f now else m) = applyFields m f now := if_pos hid
      rw [← this]
      exact List.mem_map_of_mem _ hm
    · refine ⟨by simp [applyFields, hid], rfl, rfl, rfl, rfl, rfl, ?_, ?_, ?_, ?_, ?_, ?_⟩
      all_goals first
        | (intro h; simp [applyFields, h])
        | (intro p h; simp [applyFields, h])

/-! ## Lifecycle (src/mcp/src/services/lifecycle.ts) -/

def expiresBefore (m : Memory) (now : String) : Bool :=
  match m.expires_at with
  | some e => decide (e < now)
  | none => false

/-- IndexDB.getExpired: all records with expires_at non-null and below the
captured now (ISO-8601 strings compare lexicographically). -/
def getExpired (store : List Memory) (now : String) : List Memory :=
  store.filter (fun m => expiresBefore m now)

/-- IndexDB.delete: DELETE FROM memories WHERE id = ?. -/
def dbDelete (store : List Memory) (id : String) : List Memory :=
  store.filter (fun m => !(m.id == id))

structure LifecycleResult where
  expired : Nat
  archived : Nat
deriving DecidableEq, Repr

/-- Loop body of runLifecycle: archive (success reported by the oracle),
then delete unconditionally, counting expirations and successful archives.
The archive filesystem write is outside the store model; its success or
failure is the oracle parameter. Metric writes do not touch the memories
table and are not modelled. -/
def lifecycleLoop (archiveOk : Memory → Bool) :
    List Memory → List Memory → Nat → Nat → List Memory × LifecycleResult
  | [], st, e, a => (st, { expired := e, archived := a })
  | mem :: rest, st, e, a =>
    lifecycleLoop archiveOk rest (dbDelete st mem.id) (e + 1)
      (if archiveOk mem then a + 1 else a)

/-- runLifecycle: fetch the expired set once, then archive-and-delete each. -/
def runLifecycle (store : List Memory) (now : String) (archiveOk : Memory → Bool) :
    List Memory × LifecycleResult :=
  lifecycleLoop archiveOk (getExpired store now) store 0 0

theorem lifecycleLoop_fst (archiveOk : Memory → Bool) (l : List Memory) :
    ∀ st e a, (lifecycleLoop archiveOk l st e a).1 =
      st.filter (fun x => !((l.map Memory.id).contains x.id)) := by
  induction l with
  | nil =>
    intro st e a
    simp [lifecycleLoop]
  | cons m rest ih =>
    intro st e a
    simp only [lifecycleLoop]
    rw [ih]
    unfold dbDelete
    rw [List.filter_filter]
    apply List.filter_congr
    intro x _
    simp only [List.map_cons, List.contains_cons]
    cases hx : x.id == m.id <;> simp [hx, Bool.and_comm]

theorem lifecycleLoop_counts (archiveOk : Memory → Bool) (l : List Memory) :
    ∀ st e a, (lifecycleLoop archiveOk l st e a).2.expired = e + l.length ∧
      (lifecycleLoop archiveOk l st e a).2.archived = a + l.countP archiveOk := by
  induction l with
  | nil =>
    intro st e a
    simp [lifecycleLoop]
  | cons m rest ih =>
    intro st e a
    simp only [lifecycleLoop, List.length_cons, List.countP_cons]
    have := ih (dbDelete st m.id) (e + 1) (if archiveOk m then a + 1 else a)
    rw [this.1, this.2]
    cases h : archiveOk m <;> simp [h] <;> omega

/-- C5: after runLifecycle no record with expires_at below now remains, every
expired record is removed even when its archive write failed, the archived
count is exactly the number of successful archive writes, and it never
exceeds the expired count. -/
theorem lifecycle_drain (store : List Memory) (now : String) (archiveOk : Memory → Bool) :
    (∀ m ∈ (runLifecycle store now archiveOk).1, expiresBefore m now = false) ∧
    (∀ m ∈ getExpired store now, m ∉ (runLifecycle store now archiveOk).1) ∧
    (runLifecycle store now archiveOk).2.expired = (getExpired store now).length ∧
    (runLifecycle store now archiveOk).2.archived = (getExpired store now).countP archiveOk ∧
    (runLifecycle store now archiveOk).2.archived ≤ (runLifecycle store now archiveOk).2.expired := by
  have hfst := lifecycleLoop_fst archiveOk (getExpired store now) store 0 0
  have hcnt := lifecycleLoop_counts archiveOk (getExpired store now) store 0 0
  refine ⟨?_, ?_, ?_, ?_, ?_⟩
  · intro m hm
    rw [runLifecycle, hfst] at hm
    rw [List.mem_filter] at hm
    by_contra hexp
    have hmem : m ∈ getExpired store now := by
      rw [getExpired, List.mem_filter]
      exact ⟨hm.1, by simp at hexp; simp [hexp]⟩
    have : m.id ∈ (getExpired store now).map Memory.id := List.mem_map_of_mem _ hmem
    have hc : ((getExpired store now).map Memory.id).contains m.id = true := by
      rw [List.contains_eq_any_beq, List.any_eq_true]
      exact ⟨m.id, this, by simp⟩
    rw [hc] at hm
    simp at hm
  · intro m hm hin
    rw [runLifecycle, hfst] at hin
    rw [List.mem_filter] at hin
    have : m.id ∈ (getExpired store now).map Memory.id := List.mem_map_of_mem _ hm
    have hc : ((getExpired store now).map Memory.id).contains m.id = true := by
      rw [List.contains_eq_any_beq, List.any_eq_true]
      exact ⟨m.id, this, by simp⟩
    rw [hc] at hin
    simp at hin
  · rw [runLifecycle]
    rw [hcnt.1]
    omega
  · rw [runLifecycle]
    rw [hcnt.2]
    omega
  · rw [runLifecycle, hcnt.1, hcnt.2]
    have := List.countP_le_length (p := archiveOk) (l := getExpired store now)
    omega

/-! ## Search emptiness helpers -/

theorem ftsSearch_eq_nil {store : List Memory} {q : String} (limit : Nat)
    (h : ∀ m ∈ store, ftsMatch m q = false) : ftsSearch store q limit = [] := by
  unfold ftsSearch
  have : store.filter (fun m => ftsMatch m q) = [] := by
    rw [List.filter_eq_nil_iff]
    intro m hm
    simp [h m hm]
  rw [this, List.take_nil]

theorem ftsSearch_isEmpty_false {store : List Memory} {q : String} {m : Memory}
    (hm : m ∈ store) (hmatch : ftsMatch m q = true) (limit : Nat) :
    (ftsSearch store q (limit + 1)).isEmpty = false := by
  unfold ftsSearch
  have hmem : m ∈ store.filter (fun x => ftsMatch x q) := List.mem_filter.mpr ⟨hm, hmatch⟩
  cases hflt : store.filter (fun x => ftsMatch x q) with
  | nil => rw [hflt] at hmem; cases hmem
  | cons x xs => simp [List.take]

/-! ## mem_store (src/mcp/src/index.ts) -/

structure StoreReply where
  updatedExisting : Bool
  id : String
deriving DecidableEq, Repr

/-- mem_store tool handler: searches the title with limit 3, looks for a hit
with the same title (case-insensitively) and same type; if found, updates
its content and summary in place and replies with the existing id, otherwise
inserts a new record with expires_at computed from the priority. The uuid,
the clock and the two TTL-shifted timestamps are parameters. -/
def memStore (store : List Memory) (title summary content : String) (ty : MemoryType)
    (priority : Nat) (tags : List String) (now newId expDiary expInsight : String) :
    List Memory × StoreReply :=
  let existing := ftsSearch store title 3
  match existing.find? (fun r => lowerStr r.title == lowerStr title && r.type == ty) with
  | some dup =>
    ((dbUpdate store dup.id { content := some content, summary := some summary } now).1,
     { updatedExisting := true, id := dup.id })
  | none =>
    let expiresAt : Option String :=
      if priority = 2 then some expDiary
      else if priority = 1 then some expInsight
      else none
    let result := dbInsert store
      { type := ty, priority := priority, title := title, summary := summary,
        content := content, tags := some tags, expires_at := some expiresAt } newId now
    (result.2, { updatedExisting := false, id := result.1.id })

/-- C2: mem_store is idempotent on the (title, type) key when the store holds
no record matching the title query: the first call inserts, the second call
with a same-up-to-case title and same type updates that record in place and
replies with the existing id, leaving exactly one record with that title and
type whose content and summary are the last invocation's arguments. -/
theorem memStore_title_type_idempotent (store : List Memory)
    (title1 title2 s1 s2 c1 c2 : String) (ty : MemoryType) (p1 p2 : Nat)
    (tg1 tg2 : List String) (now1 now2 id1 id2 eD1 eI1 eD2 eI2 : String)
    (hl : lowerStr title2 = lowerStr title1)
    (hnomatch : ∀ m ∈ store, ftsMatch m title1 = false)
    (hfresh : ∀ m ∈ store, m.id ≠ id1) :
    (memStore store title1 s1 c1 ty p1 tg1 now1 id1 eD1 eI1).2 =
      { updatedExisting := false, id := id1 } ∧
    (memStore (memStore store title1 s1 c1 ty p1 tg1 now1 id1 eD1 eI1).1
        title2 s2 c2 ty p2 tg2 now2 id2 eD2 eI2).2 =
      { updatedExisting := true, id := id1 } ∧
    (memStore (memStore store title1 s1 c1 ty p1 tg1 now1 id1 eD1 eI1).1
        title2 s2 c2 ty p2 tg2 now2 id2 eD2 eI2).1.length = store.length + 1 ∧
    ((memStore (memStore store title1 s1 c1 ty p1 tg1 now1 id1 eD1 eI1).1
        title2 s2 c2 ty p2 tg2 now2 id2 eD2 eI2).1.filter
      (fun m => lowerStr m.title == lowerStr title1 && m.type == ty)).length = 1 ∧
    (∀ m ∈ (memStore (memStore store title1 s1 c1 ty p1 tg1 now1 id1 eD1 eI1).1
        title2 s2 c2 ty p2 tg2 now2 id2 eD2 eI2).1,
      lowerStr m.title = lowerStr title1 → m.content = c2 ∧ m.summary = s2) := by
  have hsearch1 : ftsSearch store title1 3 = [] := ftsSearch_eq_nil 3 hnomatch
  have hfirst :
      memStore store title1 s1 c1 ty p1 tg1 now1 id1 eD1 eI1 =
        ((dbInsert store
          { type := ty, priority := p1, title := title1, summary := s1,
            content := c1, tags := some tg1,
            expires_at := some (if p1 = 2 then some eD1
              else if p1 = 1 then some eI1 else none) } id1 now1).2,
         { updatedExisting := false, id := id1 }) := by
    unfold memStore
    rw [hsearch1]
    rfl
  set newMem : Memory :=
    (dbInsert store
      { type := ty, priority := p1, title := title1, summary := s1,
        content := c1, tags := some tg1,
        expires_at := some (if p1 = 2 then some eD1
          else if p1 = 1 then some eI1 else none) } id1 now1).1 with hnewMem
  have hstore1 : (memStore store title1 s1 c1 ty p1 tg1 now1 id1 eD1 eI1).1 =
      store ++ [newMem] := by
    rw [hfirst]
    rfl
  have htok : tokenize title2 = tokenize title1 := tokenize_eq_of_lowerStr_eq hl
  have hmatch2 : ∀ m ∈ store, ftsMatch m title2 = false := by
    intro m hm
    rw [ftsMatch_congr_query htok]
    exact hnomatch m hm
  have hnewTitle : newMem.title = title1 := rfl
  have hnewId : newMem.id = id1 := rfl
  have hnewType : newMem.type = ty := rfl
  have hnewMatch : ftsMatch newMem title2 = true := by
    apply ftsMatch_of_title_eq
    rw [hnewTitle]
    exact hl.symm
  have hsearch2 : ftsSearch (store ++ [newMem]) title2 3 = [newMem] := by
    unfold ftsSearch
    rw [List.filter_append]
    have h1 : store.filter (fun m => ftsMatch m title2) = [] := by
      rw [List.filter_eq_nil_iff]
      intro m hm
      simp [hmatch2 m hm]
    have h2 : [newMem].filter (fun m => ftsMatch m title2) = [newMem] := by
      simp [hnewMatch]
    rw [h1, h2]
    rfl
  have hfind : ([newMem].find?
      (fun r => lowerStr r.title == lowerStr title2 && r.type == ty)) = some newMem := by
    have hpred : (lowerStr newMem.title == lowerStr title2 && newMem.type == ty) = true := by
      rw [hnewTitle]
      simp [hl.symm, hnewType]
    simp [List.find?, hpred]
  have hsecond :
      memStore (store ++ [newMem]) title2 s2 c2 ty p2 tg2 now2 id2 eD2 eI2 =
        ((dbUpdate (store ++ [newMem]) id1
            { content := some c2, summary := some s2 } now2).1,
         { updatedExisting := true, id := id1 }) := by
    unfold memStore
    rw [hsearch2]
    simp only [hfind]
    rw [hnewId]
  set updMem : Memory := applyFields newMem { content := some c2, summary := some s2 } now2
    with hupdMem
  have hmap : (dbUpdate (store ++ [newMem]) id1
      { content := some c2, summary := some s2 } now2).1 = store ++ [updMem] := by
    unfold dbUpdate
    simp only [List.map_append]
    have hstorePart : store.map (fun m => if m.id = id1
        then applyFields m { content := some c2, summary := some s2 } now2 else m) = store := by
      have : store.map (fun m => if m.id = id1
          then applyFields m { content := some c2, summary := some s2 } now2 else m) =
          store.map id := by
        apply List.map_congr_left
        intro m hm
        simp [if_neg (hfresh m hm)]
      rw [this, List.map_id]
    have hnewPart : [newMem].map (fun m => if m.id = id1
        then applyFields m { content := some c2, summary := some s2 } now2 else m) =
        [updMem] := by
      simp [hnewId]
    rw [hstorePart, hnewPart]
  have hstoreTitle : ∀ m ∈ store, lowerStr m.title ≠ lowerStr title1 := by
    intro m hm hcontra
    have := ftsMatch_of_title_eq (m := m) (q := title1) hcontra
    rw [hnomatch m hm] at this
    cases this
  have hupdTitle : updMem.title = title1 := rfl
  have hupdContent : updMem.content = c2 := rfl
  have hupdSummary : updMem.summary = s2 := rfl
  have hupdType : updMem.type = ty := rfl
  refine ⟨by rw [hfirst], ?_, ?_, ?_, ?_⟩
  · rw [hstore1, hsecond]
  · rw [hstore1, hsecond, hmap]
    simp
  · rw [hstore1, hsecond, hmap]
    rw [List.filter_append]
    have h1 : store.filter (fun m => lowerStr m.title == lowerStr title1 && m.type == ty) = [] := by
      rw [List.filter_eq_nil_iff]
      intro m hm
      simp only [Bool.and_eq_true, beq_iff_eq, not_and]
      intro hti _
      exact absurd hti (hstoreTitle m hm)
    have h2 : [updMem].filter
        (fun m => lowerStr m.title == lowerStr title1 && m.type == ty) = [updMem] := by
      simp [hupdTitle, hupdType]
    rw [h1, h2]
    rfl
  · rw [hstore1, hsecond, hmap]
    intro m hm hti
    rcases List.mem_append.mp hm with h | h
    · exact absurd hti (hstoreTitle m h)
    · rw [List.mem_singleton] at h
      subst h
      exact ⟨hupdContent, hupdSummary⟩

/-- Witness for the C2 theorem at the concrete scenario of spec test S2:
two stores of the same insight under titles differing only in case. -/
theorem memStore_title_type_idempotent_witness :
    (memStore (memStore [] "Auth flow" "s1" "c1" MemoryType.insight 1 [] "T1" "id1" "E1" "E2").1
        "auth flow" "s2" "c2" MemoryType.insight 1 [] "T2" "id2" "E3" "E4").2 =
      { updatedExisting := true, id := "id1" } ∧
    (memStore (memStore [] "Auth flow" "s1" "c1" MemoryType.insight 1 [] "T1" "id1" "E1" "E2").1
        "auth flow" "s2" "c2" MemoryType.insight 1 [] "T2" "id2" "E3" "E4").1.length = 1 := by
  have h := memStore_title_type_idempotent [] "Auth flow" "auth flow" "s1" "s2" "c1" "c2"
    MemoryType.insight 1 1 [] [] "T1" "T2" "id1" "id2" "E1" "E2" "E3" "E4"
    (by decide) (by intro m hm; cases hm) (by intro m hm; cases hm)
  exact ⟨h.2.1, h.2.2.1⟩

/-! ## Stop hook handler (src/unnamed/part_001, handleStop) -/

structure ExtractedMemories where
  diary : Option MemoryInput
  corrections : List MemoryInput
  preferences : List MemoryInput
deriving DecidableEq, Repr

/-- Insertion loop of handleStop over one candidate stream: each candidate is
inserted iff db.search(candidate.title, 1) comes back empty. The Nat is the
position in the uuid stream. -/
def stopInsertList (now : String) (idGen : Nat → String) :
    List MemoryInput → List Memory → Nat → List Memory × Nat
  | [], st, k => (st, k)
  | c :: rest, st, k =>
    if (ftsSearch st c.title 1).isEmpty then
      stopInsertList now idGen rest (dbInsert st c (idGen k) now).2 (k + 1)
    else
      stopInsertList now idGen rest st k

/-- handleStop: exit untouched when stop_hook_active; otherwise insert the
diary unconditionally, then the corrections, then the preferences, each
gated by the title search. Clock and uuid stream are parameters; the metric
write does not touch the memories table. -/
def handleStop (stopHookActive : Bool) (extracted : ExtractedMemories)
    (store : List Memory) (now : String) (idGen : Nat → String) : List Memory :=
  if stopHookActive then store
  else
    let s1 := match extracted.diary with
      | some d => (dbInsert store d (idGen 0) now).2
      | none => store
    let step2 := stopInsertList now idGen extracted.corrections s1 1
    let step3 := stopInsertList now idGen extracted.preferences step2.1 step2.2
    step3.1

/-- Correction candidate used in the C1 counterexample. -/
def corrCandidate : MemoryInput :=
  { type := MemoryType.knowledge, priority := 0, title := "Correction: use spaces",
    summary := "use spaces", content := "Source: user correction", tags := some ["correction"] }

/-- Pre-existing record for the C1 counterexample: its title differs from the
candidate's title, but its content contains the candidate title's words, so
the full-text search for the candidate title matches it. -/
def blockerMem : Memory :=
  { id := "b1", type := MemoryType.knowledge, priority := 0, title := "Tab policy note",
    summary := "tabs vs spaces history", content := "Correction: use spaces", tags := [],
    agent_id := "", source_ids := [], created_at := "2026-01-01T00:00:00Z",
    updated_at := "2026-01-01T00:00:00Z", expires_at := none }

/-- C1 counterexample: on a Stop event with stop_hook_active false, a
correction whose title names no existing record is nevertheless not
inserted, because the search for its title matches a record that merely
contains those words in its content; the store is left unchanged even though
no record with the candidate's title exists. -/
theorem handleStop_not_insert_despite_fresh_title :
    handleStop false
      { diary := none, corrections := [corrCandidate], preferences := [] }
      [blockerMem] "2026-02-02T00:00:00Z" (fun k => toString k) = [blockerMem] ∧
    (∀ m ∈ [blockerMem], m.title ≠ corrCandidate.title) := by
  constructor
  · decide
  · decide

/-- C1 amended: the Stop handler inserts a correction or preference iff the
full-text search for the candidate's title over the current store returns no
result: a store with no record matching the title's tokens receives the
insert, while any record bearing that exact title (even up to case) always
suppresses it — but so does any other record matching the title's tokens. -/
theorem handleStop_insert_iff_search_empty (store : List Memory) (c p : MemoryInput)
    (now : String) (idGen : Nat → String) :
    ((∀ m ∈ store, ftsMatch m c.title = false) →
      handleStop false { diary := none, corrections := [c], preferences := [] }
          store now idGen =
        store ++ [(dbInsert store c (idGen 1) now).1]) ∧
    ((∃ m ∈ store, lowerStr m.title = lowerStr c.title) →
      handleStop false { diary := none, corrections := [c], preferences := [] }
          store now idGen = store) ∧
    ((∀ m ∈ store, ftsMatch m p.title = false) →
      handleStop false { diary := none, corrections := [], preferences := [p] }
          store now idGen =
        store ++ [(dbInsert store p (idGen 1) now).1]) ∧
    ((∃ m ∈ store, lowerStr m.title = lowerStr p.title) →
      handleStop false { diary := none, corrections := [], preferences := [p] }
          store now idGen = store) := by
  refine ⟨?_, ?_, ?_, ?_⟩
  · intro h
    have hs : ftsSearch store c.title 1 = [] := ftsSearch_eq_nil 1 h
    simp only [handleStop, stopInsertList, hs]
    rfl
  · rintro ⟨m, hm, hti⟩
    have hmt : ftsMatch m c.title = true := ftsMatch_of_title_eq hti
    have hne := ftsSearch_isEmpty_false hm hmt 0
    simp only [handleStop, stopInsertList, hne]
    rfl
  · intro h
    have hs : ftsSearch store p.title 1 = [] := ftsSearch_eq_nil 1 h
    simp only [handleStop, stopInsertList, hs]
    rfl
  · rintro ⟨m, hm, hti⟩
    have hmt : ftsMatch m p.title = true := ftsMatch_of_title_eq hti
    have hne := ftsSearch_isEmpty_false hm hmt 0
    simp only [handleStop, stopInsertList, hne]
    rfl

/-- Witness for the C1 amended theorem: an empty store receives the
correction insert, and a store holding a record with the candidate's exact
title is left unchanged. -/
theorem handleStop_insert_iff_search_empty_witness :
    handleStop false
        { diary := none,
          corrections :=
            [{ type := MemoryType.knowledge, priority := 0, title := "Correction: use tabs",
               summary := "s", content := "c", tags := some ["correction"] }],
          preferences := [] }
        [] "2026-02-02T00:00:00Z" (fun _ => "w1") =
      [] ++ [(dbInsert []
        { type := MemoryType.knowledge, priority := 0, title := "Correction: use tabs",
          summary := "s", content := "c", tags := some ["correction"] } "w1"
        "2026-02-02T00:00:00Z").1] :=
  (handleStop_insert_iff_search_empty []
    { type := MemoryType.knowledge, priority := 0, title := "Correction: use tabs",
      summary := "s", content := "c", tags := some ["correction"] }
    { type := MemoryType.knowledge, priority := 0, title := "P", summary := "s",
      content := "c", tags := some [] }
    "2026-02-02T00:00:00Z" (fun _ => "w1")).1 (by intro m hm; cases hm)

/-! ## Checkpointer (src/src/checkpoint.ts) -/

/-- Prefix test on strings (JS String.prototype.startsWith), executable by
structural recursion on the character lists. -/
def strStartsWith (s pre : String) : Bool := pre.toList.isPrefixOf s.toList

/-- Suffix test on strings (JS String.prototype.endsWith). -/
def strEndsWith (s suf : String) : Bool := suf.toList.reverse.isPrefixOf s.toList.reverse

/-- Lexicographic comparison of character lists by code point, modelling the
default JS Array.prototype.sort comparison of strings. -/
def charListLe : List Char → List Char → Bool
  | [], _ => true
  | _ :: _, [] => false
  | a :: as, b :: bs =>
    if a.toNat < b.toNat then true
    else if b.toNat < a.toNat then false
    else charListLe as bs

theorem charListLe_refl : ∀ as, charListLe as as = true := by
  intro as
  induction as with
  | nil => rfl
  | cons a as ih => simp [charListLe, ih]

theorem charListLe_total : ∀ as bs, charListLe as bs = true ∨ charListLe bs as = true := by
  intro as
  induction as with
  | nil =>
    intro bs
    left
    rfl
  | cons a as ih =>
    intro bs
    cases bs with
    | nil =>
      right
      rfl
    | cons b bs =>
      by_cases h1 : a.toNat < b.toNat
      · left
        simp [charListLe, h1]
      · by_cases h2 : b.toNat < a.toNat
        · right
          simp [charListLe, h2]
        · rcases ih bs with h | h
          · left
            simp [charListLe, h1, h2, h]
          · right
            simp [charListLe, h1, h2, h]

theorem charListLe_trans :
    ∀ as bs cs, charListLe as bs = true → charListLe bs cs = true → charListLe as cs = true := by
  intro as
  induction as with
  | nil =>
    intro bs cs h1 h2
    rfl
  | cons a as ih =>
    intro bs cs h1 h2
    cases bs with
    | nil => simp [charListLe] at h1
    | cons b bs =>
      cases cs with
      | nil => simp [charListLe] at h2
      | cons c cs =>
        by_cases hab : a.toNat < b.toNat
        · by_cases hbc : b.toNat < c.toNat
          · simp [charListLe, show a.toNat < c.toNat from by omega]
          · by_cases hcb : c.toNat < b.toNat
            · simp [charListLe, hbc, hcb] at h2
            · simp [charListLe, show a.toNat < c.toNat from by omega]
        · by_cases hba : b.toNat < a.toNat
          · simp [charListLe, hab, hba] at h1
          · by_cases hbc : b.toNat < c.toNat
            · simp [charListLe, show a.toNat < c.toNat from by omega]
            · by_cases hcb : c.toNat < b.toNat
              · simp [charListLe, hbc, hcb] at h2
              · have h1t : charListLe as bs = true := by simpa [charListLe, hab, hba] using h1
                have h2t : charListLe bs cs = true := by simpa [charListLe, hbc, hcb] using h2
                simp [charListLe, show ¬ a.toNat < c.toNat from by omega,
                  show ¬ c.toNat < a.toNat from by omega]
                exact ih bs cs h1t h2t

theorem charEq_of_toNat_eq {a b : Char} (h : a.toNat = b.toNat) : a = b := by
  have hv : a.val = b.val := by
    have h1 : a.val.toNat = b.val.toNat := h
    exact UInt32.toNat.inj h1
  cases a
  cases b
  simp only at hv
  simp [hv]

theorem charListLe_antisymm :
    ∀ as bs, charListLe as bs = true → charListLe bs as = true → as = bs := by
  intro as
  induction as with
  | nil =>
    intro bs h1 h2
    cases bs with
    | nil => rfl
    | cons b bs => simp [charListLe] at h2
  | cons a as ih =>
    intro bs h1 h2
    cases bs with
    | nil => simp [charListLe] at h1
    | cons b bs =>
      by_cases hab : a.toNat < b.toNat
      · simp [charListLe, show ¬ b.toNat < a.toNat from by omega, hab] at h2
      · by_cases hba : b.toNat < a.toNat
        · simp [charListLe, hab, hba] at h1
        · have hEq : a = b := charEq_of_toNat_eq (by omega)
          have h1t : charListLe as bs = true := by simpa [charListLe, hab, hba] using h1
          have h2t : charListLe bs as = true := by
            simpa [charListLe, show ¬ b.toNat < a.toNat from by omega,
              show ¬ a.toNat < b.toNat from by omega] using h2
          rw [hEq, ih bs h1t h2t]

/-- String order used by the checkpoint filename sort. -/
def strLeProp (a b : String) : Prop := charListLe a.toList b.toList = true

instance : DecidableRel strLeProp := fun a b =>
  inferInstanceAs (Decidable (charListLe a.toList b.toList = true))

instance : IsTotal String strLeProp := ⟨fun a b => charListLe_total a.toList b.toList⟩

instance : IsTrans String strLeProp := ⟨fun _ _ _ => charListLe_trans _ _ _⟩

theorem strLeProp_refl (a : String) : strLeProp a a := charListLe_refl a.toList

theorem strLeProp_antisymm {a b : String} (h1 : strLeProp a b) (h2 : strLeProp b a) : a = b := by
  have hl : a.toList = b.toList := charListLe_antisymm _ _ h1 h2
  cases a
  cases b
  simp only [String.toList] at hl
  rw [hl]

structure CheckpointData where
  session_id : String
  timestamp : String
  current_task : String
  decisions : List String
  files_modified : List String
  corrections : List String
  context_summary : String
deriving DecidableEq, Repr

/-- Modelled from the spec: the checkpoint directory and the JSON parser are
filesystem effects outside the repository sources; the directory is an
association list from filename to parse outcome, none meaning the file does
not parse as a checkpoint. -/
def readCheckpointFile (dir : List (String × Option CheckpointData)) (f : String) :
    Option CheckpointData :=
  match dir.find? (fun e => e.1 == f) with
  | some e => e.2
  | none => none

def checkpointFileNames (dir : List (String × Option CheckpointData)) (sessionId : String) :
    List String :=
  (dir.map Prod.fst).filter (fun f => strStartsWith f sessionId && strEndsWith f ".json")

/-- getLatestCheckpoint: filter the directory to filenames that start with
the session id and end with .json, sort ascending, reverse, and parse only
the first file of the reversed order (a parse failure yields null without
trying the remaining files). -/
def getLatestCheckpoint (dir : List (String × Option CheckpointData)) (sessionId : String) :
    Option CheckpointData :=
  let files := checkpointFileNames dir sessionId
  let ordered := (List.insertionSort strLeProp files).reverse
  match ordered with
  | [] => none
  | f :: _ => readCheckpointFile dir f

/-- Concrete checkpoint payload for the C6 counterexample. -/
def cpSample : CheckpointData :=
  { session_id := "s", timestamp := "2026-01-01T00:00:00Z", current_task := "fix login",
    decisions := [], files_modified := [], corrections := [], context_summary := "" }

/-- C6 counterexample: the directory holds a parseable checkpoint file for
session s, namely s-1.json, yet getLatestCheckpoint returns none because the
lexicographically later file s-2.json does not parse and the scan does not
continue past it. -/
theorem getLatestCheckpoint_none_despite_parseable :
    getLatestCheckpoint [("s-1.json", some cpSample), ("s-2.json", none)] "s" = none ∧
    ("s-1.json" ∈ checkpointFileNames [("s-1.json", some cpSample), ("s-2.json", none)] "s") ∧
    readCheckpointFile [("s-1.json", some cpSample), ("s-2.json", none)] "s-1.json" =
      some cpSample := by
  refine ⟨by decide, by decide, by decide⟩

/-- C6 amended: getLatestCheckpoint considers the filenames that start with
the session id (not the id followed by a dash) and end with .json, takes
only the lexicographically greatest of them, and returns that single file's
parse outcome: the checkpoint when it parses, and none otherwise, without
consulting any earlier file. -/
theorem getLatestCheckpoint_reads_greatest (dir : List (String × Option CheckpointData))
    (sessionId f : String)
    (hmem : f ∈ checkpointFileNames dir sessionId)
    (hmax : ∀ g ∈ checkpointFileNames dir sessionId, strLeProp g f) :
    getLatestCheckpoint dir sessionId = readCheckpointFile dir f := by
  have hperm : (List.insertionSort strLeProp (checkpointFileNames dir sessionId)).Perm
      (checkpointFileNames dir sessionId) :=
    List.perm_insertionSort _ _
  have hsorted : (List.insertionSort strLeProp
      (checkpointFileNames dir sessionId)).Sorted strLeProp :=
    List.sorted_insertionSort _ _
  show (match (List.insertionSort strLeProp (checkpointFileNames dir sessionId)).reverse with
    | [] => none
    | g :: _ => readCheckpointFile dir g) = readCheckpointFile dir f
  cases hrev : (List.insertionSort strLeProp (checkpointFileNames dir sessionId)).reverse with
  | nil =>
    exfalso
    have hs0 : List.insertionSort strLeProp (checkpointFileNames dir sessionId) = [] := by
      have := congrArg List.reverse hrev
      rwa [List.reverse_reverse] at this
    have hlen := hperm.length_eq
    rw [hs0] at hlen
    have : checkpointFileNames dir sessionId = [] :=
      List.eq_nil_of_length_eq_zero hlen.symm
    rw [this] at hmem
    cases hmem
  | cons g rest =>
    have hg_mem_sort : g ∈ List.insertionSort strLeProp (checkpointFileNames dir sessionId) := by
      have : g ∈ (List.insertionSort strLeProp (checkpointFileNames dir sessionId)).reverse := by
        rw [hrev]
        exact List.mem_cons_self g rest
      exact List.mem_reverse.mp this
    have hg_files : g ∈ checkpointFileNames dir sessionId := hperm.mem_iff.mp hg_mem_sort
    have hgf : strLeProp g f := hmax g hg_files
    have hf_sort : f ∈ List.insertionSort strLeProp (checkpointFileNames dir sessionId) :=
      hperm.mem_iff.mpr hmem
    have hfg : strLeProp f g := by
      have hf_rev : f ∈ (List.insertionSort strLeProp
          (checkpointFileNames dir sessionId)).reverse := List.mem_reverse.mpr hf_sort
      rw [hrev] at hf_rev
      rcases List.mem_cons.mp hf_rev with h | h
      · rw [h]
        exact strLeProp_refl g
      · have hsorted_rev : ((List.insertionSort strLeProp
            (checkpointFileNames dir sessionId)).reverse).Pairwise (fun a b => strLeProp b a) :=
          List.pairwise_reverse.mpr hsorted
        rw [hrev] at hsorted_rev
        exact List.rel_of_sorted_cons hsorted_rev f h
    have hgeq : g = f := strLeProp_antisymm hgf hfg
    rw [hgeq]

/-- Witness for the C6 amended theorem: a directory with one matching
parseable file returns exactly that checkpoint. -/
theorem getLatestCheckpoint_reads_greatest_witness :
    getLatestCheckpoint [("s-1.json", some cpSample)] "s" =
      readCheckpointFile [("s-1.json", some cpSample)] "s-1.json" :=
  getLatestCheckpoint_reads_greatest [("s-1.json", some cpSample)] "s" "s-1.json"
    (by decide) (by decide)

/-! ## Extractor (src/src/extractor.ts, embedded as src/unnamed/part_002) -/

inductive ContentBlock where
  | plain (s : String)
  | textBlock (s : String)
  | other
deriving DecidableEq, Repr

inductive MsgContent where
  | str (s : String)
  | blocks (bs : List ContentBlock)
  | other
deriving DecidableEq, Repr

structure TranscriptMessage where
  role : String
  content : MsgContent
deriving DecidableEq, Repr

def blockText : ContentBlock → String
  | ContentBlock.plain s => s
  | ContentBlock.textBlock s => s
  | ContentBlock.other => ""

/-- extractText: a string content is itself; a block array contributes plain
string blocks and type=text blocks joined by spaces; anything else is
empty. -/
def extractText : MsgContent → String
  | MsgContent.str s => s
  | MsgContent.blocks bs => joinSpace (bs.map blockText)
  | MsgContent.other => ""

structure RegexMatch where
  whole : String
  group1 : String
  index : Nat
deriving DecidableEq, Repr

/-- Modelled from the spec: the JS regular-expression engine and JSON parser
are outside the repository sources; each authoritative pattern of the §6
catalog is abstracted as a scan-all-matches function, and the two
clock-derived strings (the date-stamped fallback title suffix and the diary
TTL timestamp) are fields. -/
structure ExtractorEnv where
  parseLine : String → Option TranscriptMessage
  topicMatches1 : String → List String
  topicMatches2 : String → List String
  corrMatches1 : String → List RegexMatch
  corrMatches2 : String → List RegexMatch
  prefMatches1 : String → List RegexMatch
  prefMatches2 : String → List RegexMatch
  fileMatches : MsgContent → List String
  today : String
  nowPlusDiaryTtl : String

/-- JS slice(start, stop) for non-negative indices. -/
def jsSlice (s : String) (start stop : Nat) : String :=
  String.mk ((s.toList.drop start).take (stop - start))

/-- JS slice(0, n). -/
def jsTake (s : String) (n : Nat) : String := String.mk (s.toList.take n)

def addUnique (acc : List String) (w : String) : List String :=
  if w ∈ acc then acc else acc ++ [w]

/-- JS Set insertion-order deduplication. -/
def uniqList (l : List String) : List String := l.foldl addUnique []

def isInfixList (sub : List Char) : List Char → Bool
  | [] => sub.isEmpty
  | c :: cs => sub.isPrefixOf (c :: cs) || isInfixList sub cs

/-- JS String.prototype.includes. -/
def containsSubstr (s sub : String) : Bool := isInfixList sub.toList s.toList

def extractTopics (env : ExtractorEnv) (messages : List TranscriptMessage) : List String :=
  let raw := (messages.take 10).foldl (fun acc msg =>
    let text := extractText msg.content
    acc ++ (env.topicMatches1 text).map (fun t => lowerStr t.trim)
        ++ (env.topicMatches2 text).map (fun t => lowerStr t.trim)) []
  (uniqList raw).take 5

def extractFileRefs (env : ExtractorEnv) (messages : List TranscriptMessage) : List String :=
  let raw := messages.foldl (fun acc msg =>
    acc ++ (env.fileMatches msg.content).filter (fun f =>
      f.toList.contains '/' && !(strStartsWith f "http") &&
        !(containsSubstr f "node_modules"))) []
  (uniqList raw).take 10

/-- buildDiary: deterministic given the parsed messages, the pattern oracles
and the clock strings; always a type=diary priority=2 input. -/
def buildDiary (env : ExtractorEnv) (messages : List TranscriptMessage) : MemoryInput :=
  let userMessages := messages.filter (fun m => m.role == "user")
  let assistantMessages := messages.filter (fun m => m.role == "assistant")
  let firstUserMsg := jsTake (match userMessages with
    | [] => ""
    | u :: _ => extractText u.content) 100
  let topics := extractTopics env messages
  let filesModified := extractFileRefs env messages
  let title := if firstUserMsg ≠ "" then
      "Session: " ++
        (String.mk (firstUserMsg.toList.map (fun c => if c = '\n' then ' ' else c))).trim
    else "Session diary " ++ env.today
  let summary := joinSpace (List.filterMap id
    [some (toString userMessages.length ++ " user msgs, " ++
       toString assistantMessages.length ++ " assistant msgs."),
     if topics.length > 0 then some ("Topics: " ++ String.intercalate ", " topics) else none])
  let parts := (messages.drop (messages.length - 20)).foldl (fun acc msg =>
    let text := extractText msg.content
    if text.length > 0 then
      acc ++ [(if msg.role == "user" then "**User**" else "**Assistant**") ++ ": " ++
        jsTake text 200]
    else acc) []
  let parts := if filesModified.length > 0 then
      parts ++ ["\nFiles referenced: " ++ String.intercalate ", " filesModified]
    else parts
  { type := MemoryType.diary
    priority := 2
    title := title
    summary := summary
    content := String.intercalate "\n" parts
    tags := some (topics.take 5)
    expires_at := some (some env.nowPlusDiaryTtl) }

def correctionOfMatch (text patName : String) (mt : RegexMatch) : MemoryInput :=
  let extracted := mt.group1.trim
  { type := MemoryType.knowledge
    priority := 0
    title := "Correction: " ++ jsTake extracted 60
    summary := jsTake extracted 150
    content := "Source: user correction (" ++ patName ++ ")\nContext: " ++
      jsSlice text (mt.index - 50) (mt.index + mt.whole.length + 50)
    tags := some ["correction", patName] }

def preferenceOfMatch (text : String) (mt : RegexMatch) : MemoryInput :=
  let extracted := mt.group1.trim
  { type := MemoryType.knowledge
    priority := 0
    title := "Preference: " ++ jsTake extracted 60
    summary := jsTake extracted 150
    content := "Source: user preference\nFull context: " ++
      jsSlice text (mt.index - 30) (mt.index + mt.whole.length + 30)
    tags := some ["preference"] }

def dedupAux : List MemoryInput → List String → List MemoryInput
  | [], _ => []
  | m :: rest, seen =>
    let key := lowerStr m.title
    if key ∈ seen then dedupAux rest seen
    else m :: dedupAux rest (key :: seen)

/-- Case-insensitive dedup by title, keeping the first occurrence. -/
def dedupByTitle (l : List MemoryInput) : List MemoryInput := dedupAux l []

def extractCorrections (env : ExtractorEnv) (messages : List TranscriptMessage) :
    List MemoryInput :=
  let raw := (messages.filter (fun m => m.role == "user")).foldl (fun acc msg =>
    let text := extractText msg.content
    let m1 := (env.corrMatches1 text).foldl (fun acc2 mt =>
      if mt.group1.trim.length < 15 then acc2
      else acc2 ++ [correctionOfMatch text "correction" mt]) []
    let m2 := (env.corrMatches2 text).foldl (fun acc2 mt =>
      if mt.group1.trim.length < 15 then acc2
      else acc2 ++ [correctionOfMatch text "negative_preference" mt]) []
    acc ++ m1 ++ m2) []
  dedupByTitle raw

def extractPreferences (env : ExtractorEnv) (messages : List TranscriptMessage) :
    List MemoryInput :=
  let raw := (messages.filter (fun m => m.role == "user")).foldl (fun acc msg =>
    let text := extractText msg.content
    let m1 := (env.prefMatches1 text).foldl (fun acc2 mt =>
      if mt.group1.trim.length < 10 then acc2
      else acc2 ++ [preferenceOfMatch text mt]) []
    let m2 := (env.prefMatches2 text).foldl (fun acc2 mt =>
      if mt.group1.trim.length < 10 then acc2
      else acc2 ++ [preferenceOfMatch text mt]) []
    acc ++ m1 ++ m2) []
  dedupByTitle raw

def emptyExtraction : ExtractedMemories :=
  { diary := none, corrections := [], preferences := [] }

/-- Line splitter modelling String.prototype.split on a newline, keeping the
JS behavior of producing empty segments which the filter(Boolean) then
drops. -/
def splitNewlines : List Char → List Char → List String
  | [], acc => [String.mk acc.reverse]
  | c :: cs, acc =>
    if c = '\n' then String.mk acc.reverse :: splitNewlines cs []
    else splitNewlines cs (c :: acc)

def transcriptLines (text : String) : List String :=
  (splitNewlines text.toList []).filter (fun l => !(l == ""))

def parsedMessages (env : ExtractorEnv) (text : String) : List (Option TranscriptMessage) :=
  (transcriptLines text).map env.parseLine

/-- extractFromTranscript: a read failure (none) or any unparseable line
yields the empty extraction; fewer than 4 parsed messages also yields the
empty extraction; otherwise one diary plus the corrections and
preferences. -/
def extractFromTranscript (env : ExtractorEnv) (raw : Option String) : ExtractedMemories :=
  match raw with
  | none => emptyExtraction
  | some text =>
    let parsed := parsedMessages env text
    if parsed.all (fun o => o.isSome) then
      let messages := parsed.filterMap id
      if messages.length < 4 then emptyExtraction
      else
        { diary := some (buildDiary env messages)
          corrections := extractCorrections env messages
          preferences := extractPreferences env messages }
    else emptyExtraction

theorem extract_read_failure (env : ExtractorEnv) :
    extractFromTranscript env none = emptyExtraction := rfl

theorem extractFromTranscript_some (env : ExtractorEnv) (text : String) :
    extractFromTranscript env (some text) =
      (if (parsedMessages env text).all (fun o => o.isSome) = true then
        if ((parsedMessages env text).filterMap id).length < 4 then emptyExtraction
        else
          { diary := some (buildDiary env ((parsedMessages env text).filterMap id))
            corrections := extractCorrections env ((parsedMessages env text).filterMap id)
            preferences := extractPreferences env ((parsedMessages env text).filterMap id) }
      else emptyExtraction) := rfl

theorem extract_some_all_false {env : ExtractorEnv} {text : String}
    (hall : (parsedMessages env text).all (fun o => o.isSome) = false) :
    extractFromTranscript env (some text) = emptyExtraction := by
  rw [extractFromTranscript_some, if_neg]
  simp [hall]

theorem extract_some_short {env : ExtractorEnv} {text : String}
    (hall : (parsedMessages env text).all (fun o => o.isSome) = true)
    (hlen : ((parsedMessages env text).filterMap id).length < 4) :
    extractFromTranscript env (some text) = emptyExtraction := by
  rw [extractFromTranscript_some, if_pos hall, if_pos hlen]

theorem extract_some_long {env : ExtractorEnv} {text : String}
    (hall : (parsedMessages env text).all (fun o => o.isSome) = true)
    (hlen : ¬ ((parsedMessages env text).filterMap id).length < 4) :
    extractFromTranscript env (some text) =
      { diary := some (buildDiary env ((parsedMessages env text).filterMap id))
        corrections := extractCorrections env ((parsedMessages env text).filterMap id)
        preferences := extractPreferences env ((parsedMessages env text).filterMap id) } := by
  rw [extractFromTranscript_some, if_pos hall, if_neg hlen]

/-- C7: extraction produces exactly one diary (type=diary, priority=2) iff
the transcript was read, every line parsed and at least 4 messages resulted;
read failures and parse failures of any line yield the empty extraction, as
does a short transcript. -/
theorem extract_diary_gate (env : ExtractorEnv) (raw : Option String) :
    ((extractFromTranscript env raw).diary.isSome = true ↔
      ∃ text, raw = some text ∧ (parsedMessages env text).all (fun o => o.isSome) = true ∧
        4 ≤ ((parsedMessages env text).filterMap id).length) ∧
    (∀ d, (extractFromTranscript env raw).diary = some d →
      d.type = MemoryType.diary ∧ d.priority = 2) ∧
    (raw = none → extractFromTranscript env raw = emptyExtraction) ∧
    (∀ text, raw = some text → (parsedMessages env text).all (fun o => o.isSome) = false →
      extractFromTranscript env raw = emptyExtraction) ∧
    (∀ text, raw = some text → ((parsedMessages env text).filterMap id).length < 4 →
      extractFromTranscript env raw = emptyExtraction) := by
  refine ⟨?_, ?_, ?_, ?_, ?_⟩
  · constructor
    · intro h
      cases raw with
      | none => simp [extract_read_failure, emptyExtraction] at h
      | some text =>
        cases hall : (parsedMessages env text).all (fun o => o.isSome) with
        | false =>
          rw [extract_some_all_false hall] at h
          simp [emptyExtraction] at h
        | true =>
          by_cases hlen : ((parsedMessages env text).filterMap id).length < 4
          · rw [extract_some_short hall hlen] at h
            simp [emptyExtraction] at h
          · exact ⟨text, rfl, hall, by omega⟩
    · rintro ⟨text, rfl, hall, hlen⟩
      rw [extract_some_long hall (by omega)]
      rfl
  · intro d hd
    cases raw with
    | none =>
      rw [extract_read_failure] at hd
      simp [emptyExtraction] at hd
    | some text =>
      cases hall : (parsedMessages env text).all (fun o => o.isSome) with
      | false =>
        rw [extract_some_all_false hall] at hd
        simp [emptyExtraction] at hd
      | true =>
        by_cases hlen : ((parsedMessages env text).filterMap id).length < 4
        · rw [extract_some_short hall hlen] at hd
          simp [emptyExtraction] at hd
        · rw [extract_some_long hall hlen] at hd
          simp only [Option.some.injEq] at hd
          rw [← hd]
          exact ⟨rfl, rfl⟩
  · intro h
    rw [h, extract_read_failure]
  · intro text hr hall
    rw [hr, extract_some_all_false hall]
  · intro text hr hlen
    rw [hr]
    cases hall : (parsedMessages env text).all (fun o => o.isSome) with
    | false => rw [extract_some_all_false hall]
    | true => rw [extract_some_short hall hlen]

/-- Environment for the C7 witness: every line parses as a plain user
message and no pattern ever matches. -/
def envPlain : ExtractorEnv :=
  { parseLine := fun s => some { role := "user", content := MsgContent.str s }
    topicMatches1 := fun _ => []
    topicMatches2 := fun _ => []
    corrMatches1 := fun _ => []
    corrMatches2 := fun _ => []
    prefMatches1 := fun _ => []
    prefMatches2 := fun _ => []
    fileMatches := fun _ => []
    today := "2026-02-02"
    nowPlusDiaryTtl := "2026-03-04T00:00:00Z" }

/-- Witness for the C7 theorem: a four-line transcript yields a diary, a
missing transcript yields the empty extraction, a three-line transcript
yields the empty extraction. -/
theorem extract_diary_gate_witness :
    (extractFromTranscript envPlain (some "a\nb\nc\nd")).diary.isSome = true ∧
    extractFromTranscript envPlain none = emptyExtraction ∧
    extractFromTranscript envPlain (some "a\nb\nc") = emptyExtraction := by
  refine ⟨?_, ?_, ?_⟩
  · exact ((extract_diary_gate envPlain (some "a\nb\nc\nd")).1).mpr
      ⟨"a\nb\nc\nd", rfl, by decide, by decide⟩
  · exact (extract_diary_gate envPlain none).2.2.1 rfl
  · exact (extract_diary_gate envPlain (some "a\nb\nc")).2.2.2.2 "a\nb\nc" rfl (by decide)

/-! ## Overlap clustering (src/mcp/src/index.ts, compounding helpers) -/

/-- extractWords: lowercase the concatenation of title, summary and joined
tags, split at non-word characters, keep words longer than 3 characters, as
a JS Set (insertion order, first occurrence kept). -/
def extractWords (m : Memory) : List String :=
  uniqList ((splitRuns isJsWordChar
    (lowerStr (m.title ++ " " ++ m.summary ++ " " ++ joinSpace m.tags)).toList []).filter
      (fun w => 3 < w.length))

/-- computeOverlap: intersection size over the smaller set size; zero when
either set is empty. The JS float quotient is modelled exactly in ℚ. -/
def computeOverlap (a b : List String) : ℚ :=
  if a.length = 0 || b.length = 0 then 0
  else ((a.filter (fun w => b.contains w)).length : ℚ) / ((min a.length b.length : Nat) : ℚ)

theorem computeOverlap_left_nil (b : List String) : computeOverlap [] b = 0 := by
  simp [computeOverlap]

theorem computeOverlap_right_nil (a : List String) : computeOverlap a [] = 0 := by
  simp [computeOverlap]

/-- Inner loop of groupByOverlap: scan the whole input in order and collect
the unassigned records whose overlap with the seed words reaches 0.15,
assigning each one as it is taken. The JS Set of assigned ids is modelled as
a list of which only membership is queried. -/
def collectMatches (w : List String) : List Memory → List String → List Memory
  | [], _ => []
  | other :: rest, assigned =>
    if other.id ∈ assigned then collectMatches w rest assigned
    else if (0.15 : ℚ) ≤ computeOverlap w (extractWords other) then
      other :: collectMatches w rest (other.id :: assigned)
    else collectMatches w rest assigned

/-- Outer loop of groupByOverlap: each not-yet-assigned record seeds a group
of itself plus its collected matches, in input order. -/
def outerLoop (all : List Memory) : List Memory → List String → List (List Memory)
  | [], _ => []
  | mem :: rest, assigned =>
    if mem.id ∈ assigned then outerLoop all rest assigned
    else
      let grp := collectMatches (extractWords mem) all (mem.id :: assigned)
      (mem :: grp) :: outerLoop all rest (grp.map Memory.id ++ mem.id :: assigned)

def groupByOverlap (memories : List Memory) : List (List Memory) :=
  outerLoop memories memories []

theorem collectMatches_spec (w : List String) :
    ∀ (mems : List Memory) (assigned : List String),
      (∀ y ∈ collectMatches w mems assigned, y ∈ mems ∧ y.id ∉ assigned) ∧
      ((collectMatches w mems assigned).map Memory.id).Nodup := by
  intro mems
  induction mems with
  | nil =>
    intro assigned
    constructor
    · intro y hy
      simp [collectMatches] at hy
    · simp [collectMatches]
  | cons other rest ih =>
    intro assigned
    by_cases h1 : other.id ∈ assigned
    · constructor
      · intro y hy
        simp only [collectMatches, if_pos h1] at hy
        rcases (ih assigned).1 y hy with ⟨hmem, hass⟩
        exact ⟨List.mem_cons_of_mem _ hmem, hass⟩
      · simp only [collectMatches, if_pos h1]
        exact (ih assigned).2
    · by_cases h2 : (0.15 : ℚ) ≤ computeOverlap w (extractWords other)
      · constructor
        · intro y hy
          simp only [collectMatches, if_neg h1, if_pos h2] at hy
          rcases List.mem_cons.mp hy with h | h
          · subst h
            exact ⟨List.mem_cons_self _ _, h1⟩
          · rcases (ih (other.id :: assigned)).1 y h with ⟨hmem, hass⟩
            exact ⟨List.mem_cons_of_mem _ hmem, fun hc => hass (List.mem_cons_of_mem _ hc)⟩
        · simp only [collectMatches, if_neg h1, if_pos h2, List.map_cons]
          rw [List.nodup_cons]
          constructor
          · intro hc
            rcases List.mem_map.mp hc with ⟨y, hy, hid⟩
            rcases (ih (other.id :: assigned)).1 y hy with ⟨_, hass⟩
            apply hass
            rw [hid]
            exact List.mem_cons_self _ _
          · exact (ih (other.id :: assigned)).2
      · constructor
        · intro y hy
          simp only [collectMatches, if_neg h1, if_neg h2] at hy
          rcases (ih assigned).1 y hy with ⟨hmem, hass⟩
          exact ⟨List.mem_cons_of_mem _ hmem, hass⟩
        · simp only [collectMatches, if_neg h1, if_neg h2]
          exact (ih assigned).2

theorem collectMatches_not_mem_of_empty_words (w : List String) {m : Memory}
    (hw : extractWords m = []) :
    ∀ (mems : List Memory) (assigned : List String), m ∉ collectMatches w mems assigned := by
  intro mems
  induction mems with
  | nil =>
    intro assigned
    simp [collectMatches]
  | cons other rest ih =>
    intro assigned
    by_cases h1 : other.id ∈ assigned
    · simp only [collectMatches, if_pos h1]
      exact ih assigned
    · by_cases h2 : (0.15 : ℚ) ≤ computeOverlap w (extractWords other)
      · simp only [collectMatches, if_neg h1, if_pos h2]
        intro hy
        rcases List.mem_cons.mp hy with h | h
        · rw [← h, hw, computeOverlap_right_nil] at h2
          norm_num at h2
        · exact ih (other.id :: assigned) h
      · simp only [collectMatches, if_neg h1, if_neg h2]
        exact ih assigned

theorem collectMatches_nil_words :
    ∀ (mems : List Memory) (assigned : List String), collectMatches [] mems assigned = [] := by
  intro mems
  induction mems with
  | nil =>
    intro assigned
    simp [collectMatches]
  | cons other rest ih =>
    intro assigned
    by_cases h1 : other.id ∈ assigned
    · simp only [collectMatches, if_pos h1]
      exact ih assigned
    · have h2 : ¬ ((0.15 : ℚ) ≤ computeOverlap [] (extractWords other)) := by
        rw [computeOverlap_left_nil]
        norm_num
      simp only [collectMatches, if_neg h1, if_neg h2]
      exact ih assigned

theorem outerLoop_join_subset (all : List Memory) :
    ∀ (rem : List Memory) (assigned : List String), rem ⊆ all →
      ∀ x ∈ (outerLoop all rem assigned).flatten, x ∈ all := by
  intro rem
  induction rem with
  | nil =>
    intro assigned _ x hx
    simp [outerLoop] at hx
  | cons mem rest ih =>
    intro assigned hsub x hx
    have hsub2 : rest ⊆ all := fun y hy => hsub (List.mem_cons_of_mem _ hy)
    by_cases h1 : mem.id ∈ assigned
    · simp only [outerLoop, if_pos h1] at hx
      exact ih assigned hsub2 x hx
    · simp only [outerLoop, if_neg h1, List.flatten_cons] at hx
      rcases List.mem_append.mp hx with h | h
      · rcases List.mem_cons.mp h with h | h
        · rw [h]
          exact hsub (List.mem_cons_self _ _)
        · exact ((collectMatches_spec _ all _).1 x h).1
      · exact ih _ hsub2 x h

theorem count_map_id (l : List Memory) (s : String) :
    (l.map Memory.id).count s = l.countP (fun x => x.id == s) := by
  induction l with
  | nil => rfl
  | cons x xs ih =>
    simp only [List.map_cons, List.count_cons, List.countP_cons, ih]

theorem countP_id_eq_one_of_mem {all : List Memory} (hnodup : (all.map Memory.id).Nodup)
    {y : Memory} (hy : y ∈ all) : all.countP (fun x => x.id == y.id) = 1 := by
  have hle := List.nodup_iff_count_le_one.mp hnodup y.id
  have hpos : 0 < (all.map Memory.id).count y.id :=
    List.count_pos_iff.mpr (List.mem_map_of_mem _ hy)
  have hcm := count_map_id all y.id
  omega

theorem outerLoop_count (all : List Memory) (hnodup : (all.map Memory.id).Nodup) :
    ∀ (rem : List Memory) (assigned : List String), rem ⊆ all →
      (∀ x ∈ all, x.id ∉ assigned → x ∈ rem) →
      ∀ s, ((outerLoop all rem assigned).flatten).countP (fun x => x.id == s) =
        if s ∈ assigned then 0 else all.countP (fun x => x.id == s) := by
  intro rem
  induction rem with
  | nil =>
    intro assigned hsub hcov s
    simp only [outerLoop, List.flatten_nil, List.countP_nil]
    by_cases hs : s ∈ assigned
    · rw [if_pos hs]
    · rw [if_neg hs]
      symm
      rw [List.countP_eq_zero]
      intro x hx hpx
      have hxid : x.id = s := by simpa using hpx
      have : x ∈ ([] : List Memory) := hcov x hx (by rw [hxid]; exact hs)
      cases this
  | cons mem rest ih =>
    intro assigned hsub hcov s
    have hsub2 : rest ⊆ all := fun y hy => hsub (List.mem_cons_of_mem _ hy)
    by_cases h1 : mem.id ∈ assigned
    · have hcov2 : ∀ x ∈ all, x.id ∉ assigned → x ∈ rest := by
        intro x hx hxa
        rcases List.mem_cons.mp (hcov x hx hxa) with h | h
        · rw [h] at hxa
          exact absurd h1 hxa
        · exact h
      simp only [outerLoop, if_pos h1]
      exact ih assigned hsub2 hcov2 s
    · simp only [outerLoop, if_neg h1, List.flatten_cons, List.countP_append]
      have hgspec := collectMatches_spec (extractWords mem) all (mem.id :: assigned)
      have hcov2 : ∀ x ∈ all,
          x.id ∉ (collectMatches (extractWords mem) all
            (mem.id :: assigned)).map Memory.id ++ mem.id :: assigned → x ∈ rest := by
        intro x hx hxa
        have hxassigned : x.id ∉ assigned := fun hc =>
          hxa (List.mem_append_right _ (List.mem_cons_of_mem _ hc))
        rcases List.mem_cons.mp (hcov x hx hxassigned) with h | h
        · exfalso
          apply hxa
          rw [h]
          exact List.mem_append_right _ (List.mem_cons_self _ _)
        · exact h
      rw [ih _ hsub2 hcov2 s]
      by_cases hs : s ∈ assigned
      · rw [if_pos hs]
        have hsa2 : s ∈ (collectMatches (extractWords mem) all
            (mem.id :: assigned)).map Memory.id ++ mem.id :: assigned :=
          List.mem_append_right _ (List.mem_cons_of_mem _ hs)
        rw [if_pos hsa2]
        have hz : (mem :: collectMatches (extractWords mem) all
            (mem.id :: assigned)).countP (fun x => x.id == s) = 0 := by
          rw [List.countP_eq_zero]
          intro a ha hpa
          have haid : a.id = s := by simpa using hpa
          rcases List.mem_cons.mp ha with h | hg
          · apply h1
            rw [← h, haid]
            exact hs
          · rcases (hgspec.1 a hg) with ⟨_, hna⟩
            apply hna
            rw [haid]
            exact List.mem_cons_of_mem _ hs
        omega
      · rw [if_neg hs]
        by_cases hs2 : s ∈ (collectMatches (extractWords mem) all
            (mem.id :: assigned)).map Memory.id ++ mem.id :: assigned
        · rw [if_pos hs2]
          rcases List.mem_append.mp hs2 with hsg | hsm
          · rcases List.mem_map.mp hsg with ⟨y, hyg, hyid⟩
            have hymem : y ∈ all := (hgspec.1 y hyg).1
            have hcall : all.countP (fun x => x.id == s) = 1 := by
              rw [← hyid]
              exact countP_id_eq_one_of_mem hnodup hymem
            have hyid_ne : y.id ≠ mem.id := by
              intro hc
              rcases (hgspec.1 y hyg) with ⟨_, hna⟩
              apply hna
              rw [hc]
              exact List.mem_cons_self _ _
            have hmemne : (mem.id == s) = false := by
              rw [beq_eq_false_iff_ne]
              intro hc
              exact hyid_ne (hyid.trans hc.symm)
            have hgcnt : (collectMatches (extractWords mem) all
                (mem.id :: assigned)).countP (fun x => x.id == s) = 1 := by
              rw [← count_map_id]
              have hle := List.nodup_iff_count_le_one.mp hgspec.2 s
              have hpos : 0 < ((collectMatches (extractWords mem) all
                  (mem.id :: assigned)).map Memory.id).count s :=
                List.count_pos_iff.mpr hsg
              omega
            rw [List.countP_cons, hgcnt, hcall, hmemne]
            simp
          · rcases List.mem_cons.mp hsm with hseq | hsa
            · have hcall : all.countP (fun x => x.id == s) = 1 := by
                rw [hseq]
                exact countP_id_eq_one_of_mem hnodup (hsub (List.mem_cons_self _ _))
              have hgz : (collectMatches (extractWords mem) all
                  (mem.id :: assigned)).countP (fun x => x.id == s) = 0 := by
                rw [List.countP_eq_zero]
                intro a ha hpa
                have haid : a.id = s := by simpa using hpa
                rcases hgspec.1 a ha with ⟨_, hna⟩
                apply hna
                rw [haid, hseq]
                exact List.mem_cons_self _ _
              rw [List.countP_cons, hgz, hcall]
              have hmeq : (mem.id == s) = true := by
                rw [beq_iff_eq]
                exact hseq.symm
              rw [hmeq]
              simp
            · exact absurd hsa hs
        · rw [if_neg hs2]
          have hz : (mem :: collectMatches (extractWords mem) all
              (mem.id :: assigned)).countP (fun x => x.id == s) = 0 := by
            rw [List.countP_eq_zero]
            intro a ha hpa
            have haid : a.id = s := by simpa using hpa
            rcases List.mem_cons.mp ha with h | hg
            · apply hs2
              rw [← haid, ← h]
              exact List.mem_append_right _ (List.mem_cons_self _ _)
            · apply hs2
              rw [← haid]
              exact List.mem_append_left _ (List.mem_map_of_mem _ hg)
          omega

theorem outerLoop_singleton (all : List Memory) (hnodup : (all.map Memory.id).Nodup)
    {m : Memory} (hma : m ∈ all) (hw : extractWords m = []) :
    ∀ (rem : List Memory) (assigned : List String), rem ⊆ all → m ∈ rem →
      m.id ∉ assigned → [m] ∈ outerLoop all rem assigned := by
  intro rem
  induction rem with
  | nil =>
    intro assigned _ hmr _
    cases hmr
  | cons mem rest ih =>
    intro assigned hsub hmr hmass
    have hsub2 : rest ⊆ all := fun y hy => hsub (List.mem_cons_of_mem _ hy)
    by_cases h1 : mem.id ∈ assigned
    · simp only [outerLoop, if_pos h1]
      have hmne : m ≠ mem := by
        intro hc
        rw [hc] at hmass
        exact hmass h1
      rcases List.mem_cons.mp hmr with hc | hmr2
      · exact absurd hc hmne
      · exact ih assigned hsub2 hmr2 hmass
    · simp only [outerLoop, if_neg h1]
      by_cases hmm : mem = m
      · rw [hmm, hw, collectMatches_nil_words]
        exact List.mem_cons_self _ _
      · have hmr2 : m ∈ rest := by
          rcases List.mem_cons.mp hmr with hc | h
          · exact absurd hc.symm hmm
          · exact h
        have hgns : m ∉ collectMatches (extractWords mem) all (mem.id :: assigned) :=
          collectMatches_not_mem_of_empty_words _ hw all _
        have hidne : m.id ≠ mem.id := by
          intro hc
          exact hmm (List.inj_on_of_nodup_map hnodup
            (hsub (List.mem_cons_self _ _)) hma hc.symm)
        have hass2 : m.id ∉ (collectMatches (extractWords mem) all
            (mem.id :: assigned)).map Memory.id ++ mem.id :: assigned := by
          intro hc
          rcases List.mem_append.mp hc with h | h
          · rcases List.mem_map.mp h with ⟨y, hyg, hyid⟩
            have hy_all : y ∈ all := ((collectMatches_spec _ all _).1 y hyg).1
            have hym : y = m := List.inj_on_of_nodup_map hnodup hy_all hma hyid
            rw [hym] at hyg
            exact hgns hyg
          · rcases List.mem_cons.mp h with h | h
            · exact hidne h
            · exact hmass h
        exact List.mem_cons_of_mem _ (ih _ hsub2 hmr2 hass2)

/-- C4: groupByOverlap is deterministic, the concatenation of its groups is
a permutation of the input (each input record appears in exactly one group)
when record ids are unique as the store guarantees, overlap against an empty
word set is zero, and a record with an empty word set always stands as its
own singleton group, never merged into another seed's group. -/
theorem groupByOverlap_partition (input : List Memory)
    (hnodup : (input.map Memory.id).Nodup) :
    groupByOverlap input = groupByOverlap input ∧
    (groupByOverlap input).flatten.Perm input ∧
    (∀ a b : List String, a = [] ∨ b = [] → computeOverlap a b = 0) ∧
    (∀ m ∈ input, extractWords m = [] → [m] ∈ groupByOverlap input) := by
  refine ⟨rfl, ?_, ?_, ?_⟩
  · rw [List.perm_iff_count]
    intro a
    have hcnt := outerLoop_count input hnodup input [] (fun x hx => hx)
      (fun x hx _ => hx) a.id
    rw [if_neg (List.not_mem_nil a.id)] at hcnt
    show ((outerLoop input input []).flatten).countP (fun x => x == a) =
      input.countP (fun x => x == a)
    by_cases hma : a ∈ input
    · have h1 : input.countP (fun x => x.id == a.id) = 1 :=
        countP_id_eq_one_of_mem hnodup hma
      have hj1 : ((outerLoop input input []).flatten).countP (fun x => x.id == a.id) = 1 := by
        rw [hcnt, h1]
      have hex : ∃ y ∈ (outerLoop input input []).flatten, (y.id == a.id) = true :=
        List.countP_pos_iff.mp (by omega)
      rcases hex with ⟨y, hyj, hy⟩
      have hy_in : y ∈ input := outerLoop_join_subset input input [] (fun x hx => hx) y hyj
      have hya : y = a := List.inj_on_of_nodup_map hnodup hy_in hma (by simpa using hy)
      have haj : a ∈ (outerLoop input input []).flatten := by
        rw [← hya]
        exact hyj
      have hub : ((outerLoop input input []).flatten).countP (fun x => x == a) ≤
          ((outerLoop input input []).flatten).countP (fun x => x.id == a.id) := by
        apply List.countP_mono_left
        intro x _ hbe
        have hxa : x = a := by simpa using hbe
        rw [hxa]
        simp
      have hlb : 0 < ((outerLoop input input []).flatten).countP (fun x => x == a) :=
        List.count_pos_iff.mpr haj
      have hinub : input.countP (fun x => x == a) ≤ input.countP (fun x => x.id == a.id) := by
        apply List.countP_mono_left
        intro x _ hbe
        have hxa : x = a := by simpa using hbe
        rw [hxa]
        simp
      have hinlb : 0 < input.countP (fun x => x == a) := List.count_pos_iff.mpr hma
      omega
    · have h0 : ((outerLoop input input []).flatten).countP (fun x => x == a) = 0 := by
        rw [List.countP_eq_zero]
        intro x hx hbe
        have hxa : x = a := by simpa using hbe
        rw [hxa] at hx
        exact hma (outerLoop_join_subset input input [] (fun z hz => hz) a hx)
      have h0in : input.countP (fun x => x == a) = 0 := by
        rw [List.countP_eq_zero]
        intro x hx hbe
        have hxa : x = a := by simpa using hbe
        rw [hxa] at hx
        exact hma hx
      rw [h0, h0in]
  · intro a b h
    rcases h with h | h
    · rw [h]
      exact computeOverlap_left_nil b
    · rw [h]
      exact computeOverlap_right_nil a
  · intro m hm hw
    show [m] ∈ outerLoop input input []
    exact outerLoop_singleton input hnodup hm hw input [] (fun x hx => hx) hm
      (List.not_mem_nil _)

/-- Sample records with empty word sets and distinct ids for the C4
witness. -/
def wMemA : Memory :=
  { id := "a1", type := MemoryType.diary, priority := 2, title := "a b", summary := "c",
    content := "long content here", tags := [], agent_id := "", source_ids := [],
    created_at := "2026-01-01T00:00:00Z", updated_at := "2026-01-01T00:00:00Z",
    expires_at := none }

def wMemB : Memory := { wMemA with id := "b2", title := "d e" }

/-- Witness for the C4 theorem at a concrete two-record input. -/
theorem groupByOverlap_partition_witness :
    (groupByOverlap [wMemA, wMemB]).flatten.Perm [wMemA, wMemB] ∧
    [wMemA] ∈ groupByOverlap [wMemA, wMemB] := by
  have h := groupByOverlap_partition [wMemA, wMemB] (by decide)
  exact ⟨h.2.1, h.2.2.2 wMemA (by decide) (by decide)⟩

/-- C9: when the transcript parses to fewer than 4 messages, the corrections
and preferences streams are suppressed along with the diary, whatever the
pattern oracles would match on the user messages. -/
theorem extract_short_suppresses_corrections (env : ExtractorEnv) (text : String)
    (hall : (parsedMessages env text).all (fun o => o.isSome) = true)
    (hlen : ((parsedMessages env text).filterMap id).length < 4) :
    (extractFromTranscript env (some text)).corrections = [] ∧
    (extractFromTranscript env (some text)).preferences = [] ∧
    (extractFromTranscript env (some text)).diary = none := by
  rw [extract_some_short hall hlen]
  exact ⟨rfl, rfl, rfl⟩

/-- Environment for the C9 witness: every line is a user message and the
correction and preference oracles report a match on every text. -/
def envMatchy : ExtractorEnv :=
  { parseLine := fun s => some { role := "user", content := MsgContent.str s }
    topicMatches1 := fun _ => []
    topicMatches2 := fun _ => []
    corrMatches1 := fun t => [{ whole := t, group1 := "never use tabs in this repo", index := 0 }]
    corrMatches2 := fun _ => []
    prefMatches1 := fun t => [{ whole := t, group1 := "always use spaces here", index := 0 }]
    prefMatches2 := fun _ => []
    fileMatches := fun _ => []
    today := "2026-02-02"
    nowPlusDiaryTtl := "2026-03-04T00:00:00Z" }

/-- Witness for the C9 theorem: a three-message transcript whose user
messages match both a correction and a preference pattern still produces
nothing. -/
theorem extract_short_suppresses_corrections_witness :
    (extractFromTranscript envMatchy (some "x\ny\nz")).corrections = [] ∧
    (extractFromTranscript envMatchy (some "x\ny\nz")).preferences = [] ∧
    (extractFromTranscript envMatchy (some "x\ny\nz")).diary = none :=
  extract_short_suppresses_corrections envMatchy "x\ny\nz" (by decide) (by decide)

/-- Sample record for the C8 witness. -/
def updSample : Memory :=
  { id := "u1", type := MemoryType.insight, priority := 1, title := "T", summary := "S",
    content := "C", tags := ["t"], agent_id := "", source_ids := [],
    created_at := "2026-01-01T00:00:00Z", updated_at := "2026-01-01T00:00:00Z",
    expires_at := some "2026-02-01T00:00:00Z" }

/-- Witness for the C8 theorem: updating priority alone on a one-record
store returns true and leaves expires_at untouched. -/
theorem update_frame_witness :
    (dbUpdate [updSample] "u1" { priority := some 0 } "2026-01-05T00:00:00Z").2 = true ∧
    ∃ m2 ∈ (dbUpdate [updSample] "u1" { priority := some 0 } "2026-01-05T00:00:00Z").1,
      m2.priority = 0 ∧ m2.expires_at = updSample.expires_at := by
  have h := update_frame [updSample] "u1" { priority := some 0 } "2026-01-05T00:00:00Z"
  refine ⟨h.1 ⟨updSample, List.mem_cons_self _ _, rfl⟩, ?_⟩
  rcases h.2.2.2 updSample (List.mem_cons_self _ _) rfl with
    ⟨m2, hm2, hid, hty, hcr, hag, hso, hup, hti, hsu, hco, hta, hpr, hex⟩
  exact ⟨m2, hm2, hpr 0 rfl, hex rfl⟩
